import Mathlib

/-!
Verification of the WasmBlake2s hashing engine (webb-tools/merkle).

Shallow embedding conventions:
* a byte is a `Nat`; a byte buffer is a `List Nat`;
* the external blake2s-256 compression primitive is an arbitrary function
  `H : List Nat → List Nat`; the spec treats it as an opaque deterministic
  function whose output is a 32-byte digest, which appears as the hypothesis
  `∀ x, (H x).length = DIGEST_SIZE` where a theorem needs it;
* the linear wasm memory is a total function `Nat → Nat` from addresses to
  bytes, and the engine state `WasmMem` carries the reserved scratch input
  address `iRef`, the reserved output address `oRef`, and the arena bump
  pointer `heapNext` used by `newArray`;
* JS `number` arithmetic on sizes and offsets is exact in every realizable
  call (buffers fit in a 32-bit wasm memory), so `1 << depth`, `>>> 1`,
  `& 1` and friends are modelled as exact `Nat` operations.
-/

namespace Merkle

def DIGEST_SIZE : Nat := 32

/-- `NULL_BUFFER = Buffer.alloc(DIGEST_SIZE)`: 32 zero bytes. -/
def NULL_BUFFER : List Nat := List.replicate DIGEST_SIZE 0

/-- The contract of the primitive on two spans (spec 4.1):
`hashPair(a, b)` is `hash` of the concatenation. -/
def hashPair (H : List Nat → List Nat) (a b : List Nat) : List Nat := H (a ++ b)

/-- `memU8.set(data, addr)`: overwrite `data.length` bytes starting at `addr`. -/
def setBytes (m : Nat → Nat) (addr : Nat) (data : List Nat) : Nat → Nat :=
  fun i => if addr ≤ i ∧ i < addr + data.length then data.getD (i - addr) 0 else m i

/-- `memU8.subarray(addr, addr + len)` read out as a list of bytes. -/
def getBytes (m : Nat → Nat) (addr len : Nat) : List Nat :=
  (List.range len).map fun i => m (addr + i)

/-- Engine state: wasm linear memory plus the reserved addresses obtained in
the constructor (`getInputsRef`, `getOutputRef`) and the arena bump pointer. -/
structure WasmMem where
  mem : Nat → Nat
  iRef : Nat
  oRef : Nat
  heapNext : Nat

/-- `wasm.hash(vRef, len, outRef)`: read `len` bytes at `vRef`, write their
digest at `outRef` (spec 4.1, the single-span primitive). -/
def wasmHashAt (H : List Nat → List Nat) (s : WasmMem) (vRef len outRef : Nat) : WasmMem :=
  { s with mem := setBytes s.mem outRef (H (getBytes s.mem vRef len)) }

/-- `WasmBlake2s.digest(value)` (lines 46-63): values under 4096 bytes are
hashed in the pre-reserved scratch region at `iRef`; larger values go through
a fresh `newArray` block which is released afterwards.  Returns the 32 bytes
copied out of the output region together with the updated engine state. -/
def digest (H : List Nat → List Nat) (s : WasmMem) (value : List Nat) :
    List Nat × WasmMem :=
  if value.length < 4096 then
    let s1 : WasmMem := { s with mem := setBytes s.mem s.iRef value }
    let s2 := wasmHashAt H s1 s.iRef value.length s.oRef
    (getBytes s2.mem s.oRef DIGEST_SIZE, s2)
  else
    let vRef := s.heapNext
    let s1 : WasmMem :=
      { s with mem := setBytes s.mem vRef value, heapNext := s.heapNext + value.length }
    let s2 := wasmHashAt H s1 vRef value.length s.oRef
    (getBytes s2.mem s.oRef DIGEST_SIZE, s2)

/-- `WasmBlake2s.merge(a, b)` (lines 65-71): write `a` then `b` into the
scratch region and hash the `a.length + b.length` bytes starting at `iRef`. -/
def merge (H : List Nat → List Nat) (s : WasmMem) (a b : List Nat) :
    List Nat × WasmMem :=
  let s1 : WasmMem := { s with mem := setBytes s.mem s.iRef a }
  let s2 : WasmMem := { s1 with mem := setBytes s1.mem (s.iRef + a.length) b }
  let s3 := wasmHashAt H s2 s.iRef (a.length + b.length) s.oRef
  (getBytes s3.mem s.oRef DIGEST_SIZE, s3)

theorem setBytes_append (m : Nat → Nat) (addr : Nat) (x y : List Nat) :
    setBytes m addr (x ++ y) = setBytes (setBytes m addr x) (addr + x.length) y := by
  funext i
  simp only [setBytes, List.length_append]
  by_cases h1 : addr + x.length ≤ i ∧ i < addr + x.length + y.length
  · rw [if_pos h1, if_pos (by omega)]
    rw [List.getD_append_right x y 0 (i - addr) (by omega)]
    congr 1
    omega
  · rw [if_neg h1]
    by_cases h2 : addr ≤ i ∧ i < addr + x.length
    · rw [if_pos (by omega), if_pos h2]
      rw [List.getD_append x y 0 (i - addr) (by omega)]
    · rw [if_neg (by omega), if_neg h2]

theorem getBytes_setBytes (m : Nat → Nat) (addr : Nat) (v : List Nat) :
    getBytes (setBytes m addr v) addr v.length = v := by
  apply List.ext_getElem
  · simp [getBytes]
  · intro i h1 h2
    simp only [getBytes, setBytes, List.getElem_map, List.getElem_range]
    simp only [getBytes, List.length_map, List.length_range] at h1
    rw [if_pos (by omega)]
    simp only [Nat.add_sub_cancel_left]
    exact List.getD_eq_getElem v 0 h2

theorem getBytes_setBytes_of_length (m : Nat → Nat) (addr len : Nat) (v : List Nat)
    (h : v.length = len) : getBytes (setBytes m addr v) addr len = v := by
  subst h; exact getBytes_setBytes m addr v

/-- The value returned by `digest` is the primitive digest of the input. -/
theorem digest_fst (H : List Nat → List Nat) (hH : ∀ x, (H x).length = DIGEST_SIZE)
    (s : WasmMem) (value : List Nat) : (digest H s value).1 = H value := by
  by_cases h : value.length < 4096
  · simp only [digest, if_pos h, wasmHashAt]
    rw [getBytes_setBytes]
    exact getBytes_setBytes_of_length _ _ _ _ (hH _)
  · simp only [digest, if_neg h, wasmHashAt]
    rw [getBytes_setBytes]
    exact getBytes_setBytes_of_length _ _ _ _ (hH _)

/-- The value returned by `merge` is the primitive digest of the concatenation. -/
theorem merge_fst (H : List Nat → List Nat) (hH : ∀ x, (H x).length = DIGEST_SIZE)
    (s : WasmMem) (a b : List Nat) : (merge H s a b).1 = hashPair H a b := by
  simp only [merge, wasmHashAt, hashPair]
  rw [← setBytes_append, ← List.length_append, getBytes_setBytes]
  exact getBytes_setBytes_of_length _ _ _ _ (hH _)

/-- C1.  For byte buffers within the scratch capacity (the code reserves at
least the 4096-byte small-value threshold for the scratch input region),
`merge(a, b)` returns the same digest as `digest(concat(a, b))`: both write
the bytes of `a ++ b` at `iRef` and hash them into the output region. -/
theorem merge_eq_digest_concat (H : List Nat → List Nat) (s : WasmMem) (a b : List Nat)
    (hcap : a.length + b.length < 4096) :
    (merge H s a b).1 = (digest H s (a ++ b)).1 := by
  simp only [merge, digest, wasmHashAt, List.length_append, if_pos hcap,
    setBytes_append]

/-- A constant 32-byte digest function used to instantiate theorems at
concrete inputs. -/
def Hc : List Nat → List Nat := fun _ => NULL_BUFFER

/-- A concrete engine state. -/
def wasmMem0 : WasmMem := ⟨fun _ => 0, 0, 8192, 16384⟩

/-!
Tree construction.  The node buffer allocated by `buildMerkleNodes` holds
`nodeCount = 2 ^ depth` digest slots of 32 bytes each; we model it as a
`List (List Nat)` of slots, slot `i` occupying bytes `[32*i, 32*i + 32)` of
the wasm byte buffer, so the byte offset `k * DIGEST_SIZE` of the source is
slot index `k` here.  All node-buffer writes in the source are 32-aligned
32-byte writes, so this is a faithful relayout of the byte-level state.
-/

/-- Modelled from the spec: `hashValues1` is the strided batch primitive
`hashStrided` (spec 4.1): `count` digests, digest `i` taken over the
`stride` bytes of the input starting at byte `i * stride`, results written
contiguously (the source uses its returned advanced result pointer).  The
wasm implementation of this primitive is not under `src/`. -/
def hashValues1 (H : List Nat → List Nat) (buf : List Nat) (stride count : Nat) :
    List (List Nat) :=
  (List.range count).map fun i => H ((buf.drop (i * stride)).take stride)

/-- Consecutive 32-byte stores of `vals` into the node buffer starting at
slot `start` (the results of `hashValues1` landing in the lowest row). -/
def writeSlots : List (List Nat) → Nat → List (List Nat) → List (List Nat)
  | buf, _, [] => buf
  | buf, start, v :: vs => writeSlots (buf.set start v) (start + 1) vs

/-- The padding loop of `buildMerkleNodes` (lines 117-120): store `v` into
`count` consecutive slots starting at slot `start`. -/
def padSlots (v : List Nat) : List (List Nat) → Nat → Nat → List (List Nat)
  | buf, _, 0 => buf
  | buf, start, c + 1 => padSlots v (buf.set start v) (start + 1) c

/-- Modelled from the spec: `hashValues2` is `hashAdjacentPairs` (spec 4.1):
`count` digests, each hashing two adjacent 32-byte chunks.  The call site
(lines 124-126) passes the highest destination slot `parentCount - 1` and
source slot `2 * (parentCount - 1)`, and relies on the destination and source
pointers moving downward by one and two slots per digest, so that the single
call computes every row above the lowest, each child being written before the
parent that reads it.  Iteration at destination slot `t` stores
`hash(slot (2*t) ++ slot (2*t+1))` into slot `t`.  The wasm implementation of
this primitive is not under `src/`. -/
def hashValues2 (H : List Nat → List Nat) :
    List (List Nat) → Nat → Nat → List (List Nat)
  | buf, _, 0 => buf
  | buf, t, c + 1 =>
      hashValues2 H (buf.set t (hashPair H (buf.getD (2 * t) []) (buf.getD (2 * t + 1) [])))
        (t - 1) c

/-- Phases 1-5 of `WasmBlake2s.buildMerkleNodes` (lines 77-121): allocate the
zero-initialized node buffer, hash the adjacent even leaf pairs into the
lowest internal row (which starts at slot `parentCount`, the tail half), hash
an odd trailing leaf against `NULL_BUFFER` into the next slot, and fill every
remaining lowest-row slot with `merge(NULL_BUFFER, NULL_BUFFER)` when the
leaf count is below the tree capacity.  `leaves` is the leaf vector as a list
of `elementSize`-byte elements; its flat buffer `leaves.toBuffer()` is
`leaves.flatten`. -/
def preTree (H : List Nat → List Nat) (depth : Nat) (leaves : List (List Nat))
    (elementSize : Nat) : List (List Nat) :=
  let nodeCount := 2 ^ depth
  let parentCount := nodeCount / 2
  let n := leaves.length
  let evenLeafCount := if n % 2 = 1 then n - 1 else n
  let lBuffer := leaves.flatten
  let buf0 := List.replicate nodeCount NULL_BUFFER
  let buf1 := writeSlots buf0 parentCount
    (hashValues1 H lBuffer (elementSize * 2) (evenLeafCount / 2))
  let res1 := parentCount + evenLeafCount / 2
  let lastLeaf := lBuffer.drop (lBuffer.length - elementSize)
  let buf2 := if evenLeafCount ≠ n then buf1.set res1 (hashPair H lastLeaf NULL_BUFFER)
    else buf1
  let res2 := if evenLeafCount ≠ n then res1 + 1 else res1
  if n < nodeCount then
    padSlots (hashPair H NULL_BUFFER NULL_BUFFER) buf2 res2 (nodeCount - res2)
  else buf2

/-- `WasmBlake2s.buildMerkleNodes(depth, leaves)` (lines 73-132): the lowest
row construction of `preTree` followed by the single downward
`hashValues2` pass over `parentCount` destination slots starting at slot
`parentCount - 1` (byte `tIndex = (parentCount - 1) * DIGEST_SIZE`, with the
source at byte `sIndex = tIndex << 1`), and the final copy out of wasm
memory, which returns all `2 ^ depth` slots. -/
def buildMerkleNodes (H : List Nat → List Nat) (depth : Nat) (leaves : List (List Nat))
    (elementSize : Nat) : List (List Nat) :=
  hashValues2 H (preTree H depth leaves elementSize) (2 ^ depth / 2 - 1) (2 ^ depth / 2)

theorem getD_set_self (l : List (List Nat)) (i : Nat) (v : List Nat) (h : i < l.length) :
    (l.set i v).getD i [] = v := by
  rw [List.getD_eq_getElem _ _ (by simpa using h)]
  exact List.getElem_set_self _

theorem getD_set_other (l : List (List Nat)) (i j : Nat) (v : List Nat) (h : i ≠ j) :
    (l.set i v).getD j [] = l.getD j [] := by
  by_cases hj : j < l.length
  · rw [List.getD_eq_getElem _ _ (by simpa using hj), List.getD_eq_getElem _ _ hj]
    exact List.getElem_set_ne h _
  · rw [List.getD_eq_default _ _ (by simpa using Nat.le_of_not_lt hj),
      List.getD_eq_default _ _ (Nat.le_of_not_lt hj)]

theorem writeSlots_length (vs : List (List Nat)) :
    ∀ (buf : List (List Nat)) (start : Nat), (writeSlots buf start vs).length = buf.length := by
  induction vs with
  | nil => intro buf start; rfl
  | cons v vs ih => intro buf start; simp only [writeSlots]; rw [ih, List.length_set]

theorem writeSlots_getD_lt (vs : List (List Nat)) :
    ∀ (buf : List (List Nat)) (start j : Nat), j < start →
      (writeSlots buf start vs).getD j [] = buf.getD j [] := by
  induction vs with
  | nil => intro buf start j _; rfl
  | cons v vs ih =>
    intro buf start j hj
    simp only [writeSlots]
    rw [ih _ _ _ (by omega), getD_set_other _ _ _ _ (by omega)]

theorem writeSlots_getD_at (vs : List (List Nat)) :
    ∀ (buf : List (List Nat)) (start i : Nat), i < vs.length →
      start + vs.length ≤ buf.length →
      (writeSlots buf start vs).getD (start + i) [] = vs.getD i [] := by
  induction vs with
  | nil => intro buf start i hi _; simp at hi
  | cons v vs ih =>
    intro buf start i hi hb
    simp only [writeSlots]
    cases i with
    | zero =>
      rw [writeSlots_getD_lt _ _ _ _ (by omega)]
      have hlt : start < buf.length := by simp only [List.length_cons] at hb; omega
      simpa using getD_set_self buf start v hlt
    | succ i =>
      rw [show start + (i + 1) = (start + 1) + i by omega,
        ih _ _ _ (by simp only [List.length_cons] at hi; omega)
          (by rw [List.length_set]; simp only [List.length_cons] at hb; omega)]
      rfl

theorem padSlots_length (v : List Nat) :
    ∀ (c : Nat) (buf : List (List Nat)) (start : Nat),
      (padSlots v buf start c).length = buf.length := by
  intro c
  induction c with
  | zero => intro buf start; rfl
  | succ c ih => intro buf start; simp only [padSlots]; rw [ih, List.length_set]

theorem padSlots_getD_lt (v : List Nat) :
    ∀ (c : Nat) (buf : List (List Nat)) (start j : Nat), j < start →
      (padSlots v buf start c).getD j [] = buf.getD j [] := by
  intro c
  induction c with
  | zero => intro buf start j _; rfl
  | succ c ih =>
    intro buf start j hj
    simp only [padSlots]
    rw [ih _ _ _ (by omega), getD_set_other _ _ _ _ (by omega)]

theorem padSlots_getD_in (v : List Nat) :
    ∀ (c : Nat) (buf : List (List Nat)) (start j : Nat), start ≤ j → j < start + c →
      j < buf.length → (padSlots v buf start c).getD j [] = v := by
  intro c
  induction c with
  | zero => intro buf start j _ h _; omega
  | succ c ih =>
    intro buf start j h1 h2 h3
    simp only [padSlots]
    by_cases hj : j = start
    · subst hj
      rw [padSlots_getD_lt _ _ _ _ _ (by omega), getD_set_self _ _ _ h3]
    · exact ih _ _ _ (by omega) (by omega) (by rw [List.length_set]; omega)

theorem hashValues2_length (H : List Nat → List Nat) :
    ∀ (c : Nat) (buf : List (List Nat)) (t : Nat),
      (hashValues2 H buf t c).length = buf.length := by
  intro c
  induction c with
  | zero => intro buf t; rfl
  | succ c ih => intro buf t; simp only [hashValues2]; rw [ih, List.length_set]

theorem hashValues2_getD_high (H : List Nat → List Nat) :
    ∀ (c : Nat) (buf : List (List Nat)) (t j : Nat), t < j →
      (hashValues2 H buf t c).getD j [] = buf.getD j [] := by
  intro c
  induction c with
  | zero => intro buf t j _; rfl
  | succ c ih =>
    intro buf t j hj
    simp only [hashValues2]
    rw [ih _ _ _ (by omega), getD_set_other _ _ _ _ (by omega)]

/-- Slots at or above `parentCount` are not touched by the upward pass. -/
theorem buildMerkleNodes_getD_high (H : List Nat → List Nat) (depth : Nat)
    (leaves : List (List Nat)) (es j : Nat) (hj : 2 ^ depth / 2 ≤ j) :
    (buildMerkleNodes H depth leaves es).getD j [] =
      (preTree H depth leaves es).getD j [] := by
  unfold buildMerkleNodes
  rcases Nat.eq_zero_or_pos (2 ^ depth / 2) with h | h
  · rw [h]; rfl
  · exact hashValues2_getD_high H _ _ _ _ (by omega)

theorem preTree_length (H : List Nat → List Nat) (depth : Nat) (leaves : List (List Nat))
    (es : Nat) : (preTree H depth leaves es).length = 2 ^ depth := by
  by_cases h1 : leaves.length % 2 = 1
  · have h3 : leaves.length - 1 ≠ leaves.length := by omega
    by_cases h2 : leaves.length < 2 ^ depth <;>
      simp [preTree, h1, h2, h3, padSlots_length, List.length_set, writeSlots_length]
  · by_cases h2 : leaves.length < 2 ^ depth <;>
      simp [preTree, h1, h2, padSlots_length, List.length_set, writeSlots_length]

theorem buildMerkleNodes_length (H : List Nat → List Nat) (depth : Nat)
    (leaves : List (List Nat)) (es : Nat) :
    (buildMerkleNodes H depth leaves es).length = 2 ^ depth := by
  unfold buildMerkleNodes
  rw [hashValues2_length, preTree_length]

theorem flatten_length_uniform (s : Nat) :
    ∀ l : List (List Nat), (∀ x ∈ l, x.length = s) → l.flatten.length = l.length * s := by
  intro l
  induction l with
  | nil => simp
  | cons a t ih =>
    intro h
    simp only [List.flatten_cons, List.length_append, List.length_cons]
    rw [h a (by simp), ih (fun x hx => h x (by simp [hx]))]
    ring

theorem flatten_drop_uniform (s : Nat) :
    ∀ (k : Nat) (l : List (List Nat)), (∀ x ∈ l, x.length = s) →
      l.flatten.drop (k * s) = (l.drop k).flatten := by
  intro k
  induction k with
  | zero => simp
  | succ k ih =>
    intro l h
    cases l with
    | nil => simp
    | cons a t =>
      simp only [List.flatten_cons]
      rw [show (k + 1) * s = a.length + k * s by rw [h a (by simp)]; ring,
        List.drop_append, ih t (fun x hx => h x (by simp [hx]))]
      rfl

theorem flatten_chunk (s : Nat) (l : List (List Nat)) (k : Nat)
    (hu : ∀ x ∈ l, x.length = s) (hk : k < l.length) :
    (l.flatten.drop (k * s)).take s = l.getD k [] := by
  rw [flatten_drop_uniform s k l hu, List.drop_eq_getElem_cons hk, List.flatten_cons,
    List.take_left' (hu _ (List.getElem_mem hk)), List.getD_eq_getElem l [] hk]

theorem flatten_chunk_pair (s : Nat) (l : List (List Nat)) (i : Nat)
    (hu : ∀ x ∈ l, x.length = s) (hk : 2 * i + 1 < l.length) :
    (l.flatten.drop (i * (s * 2))).take (s * 2) =
      l.getD (2 * i) [] ++ l.getD (2 * i + 1) [] := by
  rw [show i * (s * 2) = (2 * i) * s by ring, flatten_drop_uniform s (2 * i) l hu,
    List.drop_eq_getElem_cons (by omega : 2 * i < l.length),
    List.drop_eq_getElem_cons hk]
  simp only [List.flatten_cons]
  rw [← List.append_assoc,
    List.take_left'
      (by rw [List.length_append, hu _ (List.getElem_mem (by omega : 2 * i < l.length)),
        hu _ (List.getElem_mem hk)]; ring),
    List.getD_eq_getElem l [] (by omega : 2 * i < l.length), List.getD_eq_getElem l [] hk]

/-- The intended value of heap slot `k` of a tree whose lowest internal row
is `row 0, row 1, ...` stored at slots `p, p + 1, ...`: slot `k` below `p`
holds the pair hash of its children at slots `2*k` and `2*k + 1`.  Slot `0`
is not a tree node (the heap indexing is 1-based); its placeholder value here
is never used by any theorem. -/
def heapVal (H : List Nat → List Nat) (p : Nat) (row : Nat → List Nat) (k : Nat) :
    List Nat :=
  if hp : p ≤ k then row (k - p)
  else if h0 : k = 0 then []
  else hashPair H (heapVal H p row (2 * k)) (heapVal H p row (2 * k + 1))
termination_by p - k
decreasing_by
  · omega
  · omega

/-- The Merkle root of a row of `2 ^ e` entries: fold adjacent pair hashes
`e` times and take the single remaining entry. -/
def rootFun (H : List Nat → List Nat) : Nat → (Nat → List Nat) → List Nat
  | 0, row => row 0
  | e + 1, row => rootFun H e fun j => hashPair H (row (2 * j)) (row (2 * j + 1))

theorem heapVal_halve (H : List Nat → List Nat) (p : Nat) (row : Nat → List Nat)
    (k : Nat) (h1 : 1 ≤ k) (h2 : k < 2 * p) :
    heapVal H (2 * p) row k =
      heapVal H p (fun j => hashPair H (row (2 * j)) (row (2 * j + 1))) k := by
  by_cases hk : p ≤ k
  · rw [heapVal, dif_neg (by omega), dif_neg (by omega), heapVal, dif_pos (by omega),
      heapVal, dif_pos (by omega)]
    conv_rhs => rw [heapVal, dif_pos hk]
    rw [show 2 * k - 2 * p = 2 * (k - p) by omega,
      show 2 * k + 1 - 2 * p = 2 * (k - p) + 1 by omega]
  · rw [heapVal, dif_neg (by omega), dif_neg (by omega)]
    conv_rhs => rw [heapVal, dif_neg hk, dif_neg (by omega)]
    rw [heapVal_halve H p row (2 * k) (by omega) (by omega),
      heapVal_halve H p row (2 * k + 1) (by omega) (by omega)]
termination_by 2 * p - k
decreasing_by
  · omega
  · omega

theorem heapVal_one (H : List Nat → List Nat) :
    ∀ (e : Nat) (row : Nat → List Nat), heapVal H (2 ^ e) row 1 = rootFun H e row := by
  intro e
  induction e with
  | zero =>
    intro row
    rw [heapVal, dif_pos (by norm_num)]
    rfl
  | succ e ih =>
    intro row
    rw [show (2 : Nat) ^ (e + 1) = 2 * 2 ^ e by ring,
      heapVal_halve H (2 ^ e) row 1 le_rfl
        (by have := Nat.one_le_two_pow (n := e); omega), ih]
    rfl

/-- The downward `hashValues2` pass starting at destination slot `c` with
`c + 1` iterations computes `heapVal` at every nonzero slot: when it reaches
slot `t`, every slot above `t` already holds its heap value, and the two
children of `t` live above `t`. -/
theorem hashValues2_heap (H : List Nat → List Nat) (p : Nat) (row : Nat → List Nat) :
    ∀ (c : Nat) (B : List (List Nat)), B.length = 2 * p → c < p →
      (∀ j, c < j → j < 2 * p → B.getD j [] = heapVal H p row j) →
      ∀ j, 1 ≤ j → j < 2 * p →
        (hashValues2 H B c (c + 1)).getD j [] = heapVal H p row j := by
  intro c
  induction c with
  | zero =>
    intro B hB hc hinv j hj1 hj2
    simp only [hashValues2]
    rw [getD_set_other _ _ _ _ (by omega)]
    exact hinv j (by omega) hj2
  | succ c ih =>
    intro B hB hc hinv j hj1 hj2
    simp only [hashValues2]
    have hchild : B.getD (2 * (c + 1)) [] = heapVal H p row (2 * (c + 1)) :=
      hinv _ (by omega) (by omega)
    have hchild2 : B.getD (2 * (c + 1) + 1) [] = heapVal H p row (2 * (c + 1) + 1) :=
      hinv _ (by omega) (by omega)
    refine ih _ (by rw [List.length_set]; exact hB) (by omega) ?_ j hj1 hj2
    intro j hj1 hj2
    by_cases hje : j = c + 1
    · subst hje
      rw [getD_set_self _ _ _ (by omega), hchild, hchild2]
      conv_rhs => rw [heapVal, dif_neg (by omega), dif_neg (by omega)]
    · rw [getD_set_other _ _ _ _ (by omega)]
      exact hinv j (by omega) hj2

/-- The full downward pass invoked as in the source, destination starting at
slot `parentCount - 1` with `parentCount` iterations. -/
theorem hashValues2_heap_top (H : List Nat → List Nat) (p : Nat) (row : Nat → List Nat)
    (B : List (List Nat)) (hB : B.length = 2 * p) (hp : 1 ≤ p)
    (hinv : ∀ j, p ≤ j → j < 2 * p → B.getD j [] = row (j - p)) :
    ∀ j, 1 ≤ j → j < 2 * p →
      (hashValues2 H B (p - 1) p).getD j [] = heapVal H p row j := by
  intro j hj1 hj2
  rw [show hashValues2 H B (p - 1) p = hashValues2 H B (p - 1) ((p - 1) + 1) by
    rw [show (p - 1) + 1 = p by omega]]
  refine hashValues2_heap H p row (p - 1) B hB (by omega) ?_ j hj1 hj2
  intro i hi1 hi2
  rw [heapVal, dif_pos (by omega)]
  exact hinv i (by omega) hi2

/-- Every nonzero slot of `buildMerkleNodes` holds the heap value determined
by the lowest row of `preTree` (for `depth ≥ 1`). -/
theorem buildMerkleNodes_getD_heap (H : List Nat → List Nat) (depth : Nat)
    (leaves : List (List Nat)) (es : Nat) (hd : 1 ≤ depth) (j : Nat) (hj1 : 1 ≤ j)
    (hj2 : j < 2 ^ depth) :
    (buildMerkleNodes H depth leaves es).getD j [] =
      heapVal H (2 ^ depth / 2)
        (fun i => (preTree H depth leaves es).getD (2 ^ depth / 2 + i) []) j := by
  have hp : 2 ^ depth = 2 * (2 ^ depth / 2) := by
    rcases Nat.exists_eq_add_of_le hd with ⟨e, he⟩
    subst he
    rw [pow_add, pow_one]
    omega
  have hp1 : 1 ≤ 2 ^ depth / 2 := by
    have := Nat.one_le_two_pow (n := depth)
    omega
  unfold buildMerkleNodes
  refine hashValues2_heap_top H (2 ^ depth / 2) _ _
    (by rw [preTree_length]; omega) hp1 ?_ j hj1 (by omega)
  intro i hi1 hi2
  show _ = (preTree H depth leaves es).getD (2 ^ depth / 2 + (i - 2 ^ depth / 2)) []
  congr 1
  omega

theorem hashValues1_length (H : List Nat → List Nat) (buf : List Nat) (stride count : Nat) :
    (hashValues1 H buf stride count).length = count := by
  simp [hashValues1]

theorem hashValues1_getD (H : List Nat → List Nat) (buf : List Nat) (stride count i : Nat)
    (hi : i < count) :
    (hashValues1 H buf stride count).getD i [] = H ((buf.drop (i * stride)).take stride) := by
  rw [hashValues1, List.getD_eq_getElem?_getD, List.getElem?_map, List.getElem?_range hi]
  rfl

/-- With an even leaf count filling the whole capacity, only the pair-hash
phase of `preTree` writes. -/
theorem preTree_even_full (H : List Nat → List Nat) (depth : Nat)
    (leaves : List (List Nat)) (es : Nat) (hev : leaves.length % 2 = 0)
    (hfull : leaves.length = 2 ^ depth) :
    preTree H depth leaves es =
      writeSlots (List.replicate (2 ^ depth) NULL_BUFFER) (2 ^ depth / 2)
        (hashValues1 H leaves.flatten (es * 2) (leaves.length / 2)) := by
  have h1 : ¬ (leaves.length % 2 = 1) := by omega
  have h2 : ¬ (leaves.length < 2 ^ depth) := by omega
  simp only [preTree, if_neg h1, if_neg h2, ne_eq, not_true_eq_false, if_false]

/-- C2.  For an even leaf vector exactly filling the tree capacity, slot
`2 ^ depth / 2 + i` of the returned buffer (byte offset
`(2 ^ depth / 2) * 32 + i * 32`, the tail half) holds
`merge(leaves[2i], leaves[2i+1])`. -/
theorem buildMerkleNodes_lowest_row (H : List Nat → List Nat)
    (hH : ∀ x, (H x).length = DIGEST_SIZE) (depth : Nat) (leaves : List (List Nat))
    (es m : Nat) (s : WasmMem) (hu : ∀ l ∈ leaves, l.length = es)
    (hn : leaves.length = 2 * m) (hd : 2 ^ depth = leaves.length) (i : Nat) (hi : i < m) :
    (buildMerkleNodes H depth leaves es).getD (2 ^ depth / 2 + i) [] =
      (merge H s (leaves.getD (2 * i) []) (leaves.getD (2 * i + 1) [])).1 := by
  have h1 : 1 ≤ 2 ^ depth := Nat.one_le_two_pow
  rw [merge_fst H hH, buildMerkleNodes_getD_high H depth leaves es _ (by omega),
    preTree_even_full H depth leaves es (by omega) hd.symm,
    show 2 ^ depth / 2 = m by omega,
    writeSlots_getD_at _ _ _ _ (by rw [hashValues1_length]; omega)
      (by rw [List.length_replicate, hashValues1_length]; omega),
    hashValues1_getD _ _ _ _ _ (by omega),
    flatten_chunk_pair es leaves i hu (by omega)]
  rfl

/-- Witness for C2 at a concrete input. -/
theorem buildMerkleNodes_lowest_row_witness :
    (∀ x, (Hc x).length = DIGEST_SIZE) ∧ (∀ l ∈ [[1], [2]], l.length = 1) ∧
      ([[1], [2]] : List (List Nat)).length = 2 * 1 ∧ 2 ^ 1 = ([[1], [2]] : List (List Nat)).length ∧
      0 < 1 ∧
      (buildMerkleNodes Hc 1 [[1], [2]] 1).getD (2 ^ 1 / 2 + 0) [] =
        (merge Hc wasmMem0 (([[1], [2]] : List (List Nat)).getD (2 * 0) [])
          (([[1], [2]] : List (List Nat)).getD (2 * 0 + 1) [])).1 :=
  ⟨fun _ => rfl, by decide, by decide, by decide, by decide,
    buildMerkleNodes_lowest_row Hc (fun _ => rfl) 1 [[1], [2]] 1 1 wasmMem0
      (by decide) (by decide) (by decide) 0 (by decide)⟩

theorem flatten_last_uniform (s : Nat) (l : List (List Nat))
    (hu : ∀ x ∈ l, x.length = s) (hl : 1 ≤ l.length) :
    l.flatten.drop (l.flatten.length - s) = l.getD (l.length - 1) [] := by
  rw [flatten_length_uniform s l hu,
    show l.length * s - s = (l.length - 1) * s by rw [Nat.sub_mul, one_mul],
    flatten_drop_uniform s (l.length - 1) l hu,
    List.drop_eq_getElem_cons (by omega : l.length - 1 < l.length),
    show l.length - 1 + 1 = l.length by omega, List.drop_length, List.flatten_cons,
    List.getD_eq_getElem l [] (by omega : l.length - 1 < l.length)]
  simp

/-- With an odd leaf count, the odd-leaf phase of `preTree` stores the pair
hash of the last leaf and `NULL_BUFFER` into the slot after the even pairs,
and the padding phase starts strictly above it. -/
theorem preTree_odd_slot (H : List Nat → List Nat) (depth : Nat)
    (leaves : List (List Nat)) (es : Nat) (hu : ∀ l ∈ leaves, l.length = es)
    (hodd : leaves.length % 2 = 1) (hn : leaves.length ≤ 2 ^ depth) :
    (preTree H depth leaves es).getD (2 ^ depth / 2 + (leaves.length - 1) / 2) [] =
      hashPair H (leaves.getD (leaves.length - 1) []) NULL_BUFFER := by
  have h1 : 1 ≤ 2 ^ depth := Nat.one_le_two_pow
  have hpc : 2 ^ depth = 2 * (2 ^ depth / 2) ∨ 2 ^ depth = 1 := by
    cases depth with
    | zero => right; norm_num
    | succ d => left; rw [pow_succ]; omega
  have hne : leaves.length - 1 ≠ leaves.length := by omega
  have hres : 2 ^ depth / 2 + (leaves.length - 1) / 2 <
      (writeSlots (List.replicate (2 ^ depth) NULL_BUFFER) (2 ^ depth / 2)
        (hashValues1 H leaves.flatten (es * 2) ((leaves.length - 1) / 2))).length := by
    rw [writeSlots_length, List.length_replicate]
    omega
  have hlast : leaves.flatten.drop (leaves.flatten.length - es) =
      leaves.getD (leaves.length - 1) [] :=
    flatten_last_uniform es leaves hu (by omega)
  by_cases hlt : leaves.length < 2 ^ depth
  · simp only [preTree, if_pos hodd, if_pos hne, if_pos hlt]
    rw [padSlots_getD_lt _ _ _ _ _ (by omega), getD_set_self _ _ _ hres, hlast]
  · simp only [preTree, if_pos hodd, if_pos hne, if_neg hlt]
    rw [getD_set_self _ _ _ hres, hlast]

/-- C4.  For an odd leaf vector within capacity, the slot immediately after
the even-pair results, slot `2 ^ depth / 2 + (n - 1) / 2`, holds
`merge(lastLeaf, Z)` where `Z` is the 32-byte all-zero buffer. -/
theorem buildMerkleNodes_odd_slot (H : List Nat → List Nat)
    (hH : ∀ x, (H x).length = DIGEST_SIZE) (depth : Nat) (leaves : List (List Nat))
    (es : Nat) (s : WasmMem) (hu : ∀ l ∈ leaves, l.length = es)
    (hodd : leaves.length % 2 = 1) (hn : leaves.length ≤ 2 ^ depth) :
    (buildMerkleNodes H depth leaves es).getD
        (2 ^ depth / 2 + (leaves.length - 1) / 2) [] =
      (merge H s (leaves.getD (leaves.length - 1) []) NULL_BUFFER).1 := by
  rw [merge_fst H hH, buildMerkleNodes_getD_high H depth leaves es _ (by omega),
    preTree_odd_slot H depth leaves es hu hodd hn]

/-- Witness for C4 at a concrete input. -/
theorem buildMerkleNodes_odd_slot_witness :
    (∀ x, (Hc x).length = DIGEST_SIZE) ∧ (∀ l ∈ [[7]], l.length = 1) ∧
      ([[7]] : List (List Nat)).length % 2 = 1 ∧
      ([[7]] : List (List Nat)).length ≤ 2 ^ 1 ∧
      (buildMerkleNodes Hc 1 [[7]] 1).getD
          (2 ^ 1 / 2 + (([[7]] : List (List Nat)).length - 1) / 2) [] =
        (merge Hc wasmMem0 (([[7]] : List (List Nat)).getD
          (([[7]] : List (List Nat)).length - 1) []) NULL_BUFFER).1 :=
  ⟨fun _ => rfl, by decide, by decide, by decide,
    buildMerkleNodes_odd_slot Hc (fun _ => rfl) 1 [[7]] 1 wasmMem0
      (by decide) (by decide) (by decide)⟩

/-- When the leaf count is under capacity, the padding phase of `preTree`
fills every lowest-row slot from `ceil(n / 2)` on with
`hashPair(NULL_BUFFER, NULL_BUFFER)`. -/
theorem preTree_pad_slot (H : List Nat → List Nat) (depth : Nat)
    (leaves : List (List Nat)) (es : Nat) (j : Nat)
    (hlt : leaves.length < 2 ^ depth) (hj1 : (leaves.length + 1) / 2 ≤ j)
    (hj2 : j < 2 ^ depth / 2) :
    (preTree H depth leaves es).getD (2 ^ depth / 2 + j) [] =
      hashPair H NULL_BUFFER NULL_BUFFER := by
  have h1 : 1 ≤ 2 ^ depth := Nat.one_le_two_pow
  have hpc : 2 ^ depth = 2 * (2 ^ depth / 2) := by
    cases depth with
    | zero => norm_num at hj2
    | succ d => rw [pow_succ]; omega
  by_cases hodd : leaves.length % 2 = 1
  · have hne : leaves.length - 1 ≠ leaves.length := by omega
    simp only [preTree, if_pos hodd, if_pos hne, if_pos hlt]
    rw [padSlots_getD_in _ _ _ _ _ (by omega) (by omega)
      (by rw [List.length_set, writeSlots_length, List.length_replicate]; omega)]
  · have hne : ¬ (leaves.length ≠ leaves.length) := fun h => h rfl
    simp only [preTree, if_neg hodd, if_neg hne, if_pos hlt]
    rw [padSlots_getD_in _ _ _ _ _ (by omega) (by omega)
      (by rw [writeSlots_length, List.length_replicate]; omega)]

/-- C5.  For a leaf vector strictly under capacity, every lowest-row slot
past the leaf contributions holds the padding constant `merge(Z, Z)`. -/
theorem buildMerkleNodes_pad_slot (H : List Nat → List Nat)
    (hH : ∀ x, (H x).length = DIGEST_SIZE) (depth : Nat) (leaves : List (List Nat))
    (es : Nat) (s : WasmMem) (j : Nat) (hlt : leaves.length < 2 ^ depth)
    (hj1 : (leaves.length + 1) / 2 ≤ j) (hj2 : j < 2 ^ depth / 2) :
    (buildMerkleNodes H depth leaves es).getD (2 ^ depth / 2 + j) [] =
      (merge H s NULL_BUFFER NULL_BUFFER).1 := by
  rw [merge_fst H hH, buildMerkleNodes_getD_high H depth leaves es _ (by omega),
    preTree_pad_slot H depth leaves es j hlt hj1 hj2]

/-- Witness for C5 at a concrete input. -/
theorem buildMerkleNodes_pad_slot_witness :
    (∀ x, (Hc x).length = DIGEST_SIZE) ∧
      ([[1]] : List (List Nat)).length < 2 ^ 2 ∧
      (([[1]] : List (List Nat)).length + 1) / 2 ≤ 1 ∧ 1 < 2 ^ 2 / 2 ∧
      (buildMerkleNodes Hc 2 [[1]] 1).getD (2 ^ 2 / 2 + 1) [] =
        (merge Hc wasmMem0 NULL_BUFFER NULL_BUFFER).1 :=
  ⟨fun _ => rfl, by decide, by decide, by decide,
    buildMerkleNodes_pad_slot Hc (fun _ => rfl) 2 [[1]] 1 wasmMem0 1
      (by decide) (by decide) (by decide)⟩

theorem mem_hashValues1 (H : List Nat → List Nat) (buf : List Nat) (stride count : Nat)
    (x : List Nat) (hx : x ∈ hashValues1 H buf stride count) : ∃ y, x = H y := by
  simp only [hashValues1, List.mem_map] at hx
  obtain ⟨i, _, rfl⟩ := hx
  exact ⟨_, rfl⟩

theorem mem_writeSlots (vs : List (List Nat)) :
    ∀ (buf : List (List Nat)) (start : Nat) (x : List Nat),
      x ∈ writeSlots buf start vs → x ∈ buf ∨ x ∈ vs := by
  induction vs with
  | nil => intro buf start x hx; exact Or.inl hx
  | cons v vs ih =>
    intro buf start x hx
    rcases ih _ _ _ hx with h | h
    · rcases List.mem_or_eq_of_mem_set h with h2 | h2
      · exact Or.inl h2
      · exact Or.inr (by simp [h2])
    · exact Or.inr (by simp [h])

theorem mem_padSlots (v : List Nat) :
    ∀ (c : Nat) (buf : List (List Nat)) (start : Nat) (x : List Nat),
      x ∈ padSlots v buf start c → x ∈ buf ∨ x = v := by
  intro c
  induction c with
  | zero => intro buf start x hx; exact Or.inl hx
  | succ c ih =>
    intro buf start x hx
    rcases ih _ _ _ hx with h | h
    · rcases List.mem_or_eq_of_mem_set h with h2 | h2
      · exact Or.inl h2
      · exact Or.inr h2
    · exact Or.inr h

theorem mem_hashValues2 (H : List Nat → List Nat) :
    ∀ (c : Nat) (buf : List (List Nat)) (t : Nat) (x : List Nat),
      x ∈ hashValues2 H buf t c → x ∈ buf ∨ ∃ a b, x = hashPair H a b := by
  intro c
  induction c with
  | zero => intro buf t x hx; exact Or.inl hx
  | succ c ih =>
    intro buf t x hx
    rcases ih _ _ _ hx with h | h
    · rcases List.mem_or_eq_of_mem_set h with h2 | h2
      · exact Or.inl h2
      · exact Or.inr ⟨_, _, h2⟩
    · exact Or.inr h

/-- Every slot of `preTree` is a 32-byte value (zero-fill or a digest). -/
theorem preTree_all_length (H : List Nat → List Nat)
    (hH : ∀ x, (H x).length = DIGEST_SIZE) (depth : Nat) (leaves : List (List Nat))
    (es : Nat) : ∀ x ∈ preTree H depth leaves es, x.length = DIGEST_SIZE := by
  intro x hx
  have hw : ∀ (c : Nat) (y : List Nat),
      y ∈ writeSlots (List.replicate (2 ^ depth) NULL_BUFFER) (2 ^ depth / 2)
        (hashValues1 H leaves.flatten (es * 2) c) →
      y.length = DIGEST_SIZE := by
    intro c y hy
    rcases mem_writeSlots _ _ _ _ hy with h | h
    · rw [(List.mem_replicate.mp h).2, NULL_BUFFER, List.length_replicate]
    · obtain ⟨z, rfl⟩ := mem_hashValues1 _ _ _ _ _ h
      exact hH z
  simp only [preTree] at hx
  by_cases h1 : leaves.length % 2 = 1
  · have hne : leaves.length - 1 ≠ leaves.length := by omega
    simp only [if_pos h1, if_pos hne] at hx
    by_cases h2 : leaves.length < 2 ^ depth
    · simp only [if_pos h2] at hx
      rcases mem_padSlots _ _ _ _ _ hx with h | h
      · rcases List.mem_or_eq_of_mem_set h with h3 | h3
        · exact hw _ x h3
        · rw [h3]; exact hH _
      · rw [h]; exact hH _
    · simp only [if_neg h2] at hx
      rcases List.mem_or_eq_of_mem_set hx with h3 | h3
      · exact hw _ x h3
      · rw [h3]; exact hH _
  · have hne : ¬ (leaves.length ≠ leaves.length) := fun h => h rfl
    simp only [if_neg h1, if_neg hne] at hx
    by_cases h2 : leaves.length < 2 ^ depth
    · simp only [if_pos h2] at hx
      rcases mem_padSlots _ _ _ _ _ hx with h | h
      · exact hw _ x h
      · rw [h]; exact hH _
    · simp only [if_neg h2] at hx
      exact hw _ x hx

theorem buildMerkleNodes_all_length (H : List Nat → List Nat)
    (hH : ∀ x, (H x).length = DIGEST_SIZE) (depth : Nat) (leaves : List (List Nat))
    (es : Nat) : ∀ x ∈ buildMerkleNodes H depth leaves es, x.length = DIGEST_SIZE := by
  intro x hx
  unfold buildMerkleNodes at hx
  rcases mem_hashValues2 H _ _ _ _ hx with h | ⟨a, b, rfl⟩
  · exact preTree_all_length H hH depth leaves es x h
  · exact hH _

theorem flatten_length_buildMerkleNodes (H : List Nat → List Nat)
    (hH : ∀ x, (H x).length = DIGEST_SIZE) (depth : Nat) (leaves : List (List Nat))
    (es : Nat) :
    (buildMerkleNodes H depth leaves es).flatten.length = 2 ^ depth * DIGEST_SIZE := by
  rw [flatten_length_uniform DIGEST_SIZE _
    (buildMerkleNodes_all_length H hH depth leaves es), buildMerkleNodes_length]

/-- C3 (amended).  The buffer has `2 ^ depth` slots (`2 ^ depth * 32` bytes);
every node of a row above the lowest, slot `k` with `1 ≤ k < parentCount`,
equals `merge` of its two children at slots `2k` and `2k + 1`; and the root
sits at slot 1 (byte offset 32, the second 32-byte element), not at the
buffer front: slot 0 is not a tree node. -/
theorem buildMerkleNodes_upper_rows (H : List Nat → List Nat)
    (hH : ∀ x, (H x).length = DIGEST_SIZE) (depth : Nat) (leaves : List (List Nat))
    (es : Nat) (s : WasmMem) (k : Nat) (hd : 1 ≤ depth) (hk1 : 1 ≤ k)
    (hk2 : k < 2 ^ depth / 2) :
    (buildMerkleNodes H depth leaves es).length = 2 ^ depth ∧
    (buildMerkleNodes H depth leaves es).flatten.length = 2 ^ depth * DIGEST_SIZE ∧
    (buildMerkleNodes H depth leaves es).getD k [] =
      (merge H s ((buildMerkleNodes H depth leaves es).getD (2 * k) [])
        ((buildMerkleNodes H depth leaves es).getD (2 * k + 1) [])).1 ∧
    (buildMerkleNodes H depth leaves es).getD 1 [] =
      rootFun H (depth - 1)
        (fun j => (buildMerkleNodes H depth leaves es).getD (2 ^ depth / 2 + j) []) := by
  have hp : 2 ^ depth = 2 * (2 ^ depth / 2) := by
    rcases Nat.exists_eq_add_of_le hd with ⟨e, rfl⟩
    rw [pow_add, pow_one]
    omega
  refine ⟨buildMerkleNodes_length H depth leaves es,
    flatten_length_buildMerkleNodes H hH depth leaves es, ?_, ?_⟩
  · rw [merge_fst H hH,
      buildMerkleNodes_getD_heap H depth leaves es hd k hk1 (by omega),
      buildMerkleNodes_getD_heap H depth leaves es hd (2 * k) (by omega) (by omega),
      buildMerkleNodes_getD_heap H depth leaves es hd (2 * k + 1) (by omega) (by omega)]
    rw [heapVal, dif_neg (by omega), dif_neg (by omega)]
  · have hrow : (fun j => (buildMerkleNodes H depth leaves es).getD (2 ^ depth / 2 + j) [])
        = fun j => (preTree H depth leaves es).getD (2 ^ depth / 2 + j) [] := by
      funext j
      exact buildMerkleNodes_getD_high H depth leaves es _ (by omega)
    rw [buildMerkleNodes_getD_heap H depth leaves es hd 1 le_rfl (by omega), hrow,
      show 2 ^ depth / 2 = 2 ^ (depth - 1) by
        rcases Nat.exists_eq_add_of_le hd with ⟨e, rfl⟩
        rw [Nat.add_sub_cancel_left, pow_add, pow_one]
        omega,
      heapVal_one H (depth - 1)]

/-- Witness for the amended C3 at a concrete input. -/
theorem buildMerkleNodes_upper_rows_witness :
    (∀ x, (Hc x).length = DIGEST_SIZE) ∧ 1 ≤ 2 ∧ 1 ≤ 1 ∧ 1 < 2 ^ 2 / 2 ∧
      ((buildMerkleNodes Hc 2 [[1], [2], [3], [4]] 1).length = 2 ^ 2 ∧
      (buildMerkleNodes Hc 2 [[1], [2], [3], [4]] 1).flatten.length = 2 ^ 2 * DIGEST_SIZE ∧
      (buildMerkleNodes Hc 2 [[1], [2], [3], [4]] 1).getD 1 [] =
        (merge Hc wasmMem0 ((buildMerkleNodes Hc 2 [[1], [2], [3], [4]] 1).getD (2 * 1) [])
          ((buildMerkleNodes Hc 2 [[1], [2], [3], [4]] 1).getD (2 * 1 + 1) [])).1 ∧
      (buildMerkleNodes Hc 2 [[1], [2], [3], [4]] 1).getD 1 [] =
        rootFun Hc (2 - 1)
          (fun j => (buildMerkleNodes Hc 2 [[1], [2], [3], [4]] 1).getD (2 ^ 2 / 2 + j) [])) :=
  ⟨fun _ => rfl, by decide, by decide, by decide,
    buildMerkleNodes_upper_rows Hc (fun _ => rfl) 2 [[1], [2], [3], [4]] 1 wasmMem0 1
      (by decide) (by decide) (by decide)⟩

/-- A digest function that distinguishes inputs by their first byte, used to
exhibit that the buffer front differs from the root. -/
def Hd : List Nat → List Nat := fun x => List.replicate 31 0 ++ [x.headD 7]

/-- Counterexample to C3 as stated: at `depth = 1` with the two 32-byte
leaves below, the front element (slot 0) of the returned buffer is not the
root `merge(L0, L1)`; the root is the element at byte offset 32 (slot 1). -/
theorem buildMerkleNodes_root_not_front :
    (buildMerkleNodes Hd 1 [List.replicate 32 1, List.replicate 32 2] 32).getD 0 [] ≠
        (merge Hd wasmMem0 (List.replicate 32 1) (List.replicate 32 2)).1 ∧
      (buildMerkleNodes Hd 1 [List.replicate 32 1, List.replicate 32 2] 32).getD 1 [] =
        (merge Hd wasmMem0 (List.replicate 32 1) (List.replicate 32 2)).1 := by
  decide

/-- C10.  At `depth = 0` the returned buffer is a single 32-byte slot, the
upward pass performs zero pair hashes (`parentCount = 2 ^ 0 / 2 = 0`), an
empty leaf vector yields `merge(Z, Z)` and a single leaf yields
`merge(leaves[0], Z)`. -/
theorem buildMerkleNodes_depth_zero (H : List Nat → List Nat)
    (hH : ∀ x, (H x).length = DIGEST_SIZE) (es : Nat) (l : List Nat) (s : WasmMem)
    (hl : l.length = es) :
    (buildMerkleNodes H 0 [] es).length = 1 ∧
    (buildMerkleNodes H 0 [] es).flatten.length = DIGEST_SIZE ∧
    (buildMerkleNodes H 0 [] es).getD 0 [] = (merge H s NULL_BUFFER NULL_BUFFER).1 ∧
    (buildMerkleNodes H 0 [l] es).length = 1 ∧
    (buildMerkleNodes H 0 [l] es).flatten.length = DIGEST_SIZE ∧
    (buildMerkleNodes H 0 [l] es).getD 0 [] = (merge H s l NULL_BUFFER).1 ∧
    (∀ (B : List (List Nat)) (t : Nat), hashValues2 H B t (2 ^ 0 / 2) = B) := by
  refine ⟨by simpa using buildMerkleNodes_length H 0 [] es,
    by simpa using flatten_length_buildMerkleNodes H hH 0 [] es, ?_,
    by simpa using buildMerkleNodes_length H 0 [l] es,
    by simpa using flatten_length_buildMerkleNodes H hH 0 [l] es, ?_,
    fun B t => rfl⟩
  · rw [merge_fst H hH]
    rfl
  · rw [merge_fst H hH,
      show buildMerkleNodes H 0 [l] es = preTree H 0 [l] es from rfl]
    have h := preTree_odd_slot H 0 [l] es
      (by intro x hx; simp only [List.mem_singleton] at hx; rw [hx, hl])
      (by simp) (by simp)
    simpa using h

/-- Witness for C10 at a concrete input. -/
theorem buildMerkleNodes_depth_zero_witness :
    (∀ x, (Hc x).length = DIGEST_SIZE) ∧ ([5] : List Nat).length = 1 ∧
      ((buildMerkleNodes Hc 0 [] 1).length = 1 ∧
      (buildMerkleNodes Hc 0 [] 1).flatten.length = DIGEST_SIZE ∧
      (buildMerkleNodes Hc 0 [] 1).getD 0 [] = (merge Hc wasmMem0 NULL_BUFFER NULL_BUFFER).1 ∧
      (buildMerkleNodes Hc 0 [[5]] 1).length = 1 ∧
      (buildMerkleNodes Hc 0 [[5]] 1).flatten.length = DIGEST_SIZE ∧
      (buildMerkleNodes Hc 0 [[5]] 1).getD 0 [] = (merge Hc wasmMem0 [5] NULL_BUFFER).1 ∧
      (∀ (B : List (List Nat)) (t : Nat), hashValues2 Hc B t (2 ^ 0 / 2) = B)) :=
  ⟨fun _ => rfl, by decide,
    buildMerkleNodes_depth_zero Hc (fun _ => rfl) 1 [5] wasmMem0 (by decide)⟩

/-- Witness for C1 at a concrete input. -/
theorem merge_eq_digest_concat_witness :
    ([1].length + [2].length < 4096) ∧
      (merge Hc wasmMem0 [1] [2]).1 = (digest Hc wasmMem0 ([1] ++ [2])).1 :=
  ⟨by decide, merge_eq_digest_concat Hc wasmMem0 [1] [2] (by decide)⟩

/-!
Batch operations and resource bookkeeping.  `ArenaState` records the live
arena blocks as (address, size) pairs together with the count of wasm
hash-primitive invocations, so that the error-handling claims (a failing
call performs no hashing and leaves no allocation outstanding) are statable.
-/

/-- Validation error kinds of the engine (spec section 7). -/
inductive MerkleError
  | InvalidElementSize
  | MisalignedBuffer
deriving DecidableEq

/-- Arena bookkeeping: `next` is the bump address handed out by the next
`newArray`, `outstanding` the live (address, size) blocks, `hashCalls` the
number of wasm hash-primitive invocations so far. -/
structure ArenaState where
  next : Nat
  outstanding : List (Nat × Nat)
  hashCalls : Nat
deriving DecidableEq

/-- `wasm.newArray(size)`: hand out a fresh block. -/
def alloc (σ : ArenaState) (size : Nat) : Nat × ArenaState :=
  (σ.next,
    { σ with
        next := σ.next + size + 1
        outstanding := σ.outstanding ++ [(σ.next, size)] })

/-- `wasm.__release(addr)`: drop the block at `addr` from the live set. -/
def release (σ : ArenaState) (addr : Nat) : ArenaState :=
  { σ with outstanding := σ.outstanding.filter fun p => p.1 ≠ addr }

/-- One invocation of a wasm hashing primitive. -/
def callHash (σ : ArenaState) : ArenaState := { σ with hashCalls := σ.hashCalls + 1 }

/-- A concrete empty arena. -/
def sigma0 : ArenaState := ⟨0, [], 0⟩

/-- `WasmBlake2s.digestValues(values, valueSize)` (lines 184-214), tracked
against the arena.  The alignment check
`Number.isInteger(values.byteLength / valueSize)` holds exactly when
`valueSize` is positive and divides `values.byteLength` (division by zero
yields a non-integer in JS).  `resident` is the aliasing test of line 191:
a host-resident buffer is copied into a fresh block (`vRef`, the first
allocation, hence address `σ.next`) which is released after hashing; the
result region stays allocated, backing the returned `WasmVector`.  The
digests themselves are the `hashValues1` strided batch over the records. -/
def digestValuesE (H : List Nat → List Nat) (values : List Nat) (valueSize : Nat)
    (resident : Bool) (σ : ArenaState) :
    Except MerkleError (List (List Nat)) × ArenaState :=
  if ¬ (0 < valueSize ∧ values.length % valueSize = 0) then
    (.error .MisalignedBuffer, σ)
  else
    let elementCount := values.length / valueSize
    let vRef := σ.next
    let σ1 := if resident then σ else (alloc σ values.length).2
    let σ2 := (alloc σ1 (elementCount * DIGEST_SIZE)).2
    let σ3 := callHash σ2
    let σ4 := if resident then σ3 else release σ3 vRef
    (.ok (hashValues1 H values valueSize elementCount), σ4)

/-- A VectorView: element count, element byte size and the flat byte buffer
returned by `toBuffer()`. -/
structure VectorV where
  length : Nat
  elementSize : Nat
  data : List Nat
deriving DecidableEq, Inhabited

/-- Modelled from the spec: `mergeArrayElements` is the batched merge-by-row
primitive (spec 4.6): one digest per row index `i`, hashing the
concatenation of row `i` of every vector in vector order.  The wasm
implementation of this primitive is not under `src/`. -/
def mergeArrayElements (H : List Nat → List Nat) (vectors : List VectorV)
    (elementCount elementSize : Nat) : List (List Nat) :=
  (List.range elementCount).map fun i =>
    H (vectors.map fun v => (v.data.drop (i * elementSize)).take elementSize).flatten

/-- `WasmBlake2s.mergeVectorRows(vectors)` (lines 134-182), tracked against
the arena.  The element count and element size are read from `vectors[0]`
only (lines 135-136) and validated before any allocation.  On the success
path the reference array, one copy per vector (this model takes every vector
host-resident, the copying branch of lines 158-166), and the result region
are allocated; the reference array and the copies are released before
returning, the result region stays live backing the returned vector. -/
def mergeVectorRowsE (H : List Nat → List Nat) (vectors : List VectorV)
    (σ : ArenaState) : Except MerkleError (List (List Nat)) × ArenaState :=
  let elementCount := (vectors.headD default).length
  let elementSize := (vectors.headD default).elementSize
  if 64 < elementSize then (.error .InvalidElementSize, σ)
  else if 64 % elementSize ≠ 0 then (.error .InvalidElementSize, σ)
  else
    let (vRefs, σ1) := alloc σ (vectors.length * 8)
    let (copies, σ2) := vectors.foldl
      (fun (acc : List Nat × ArenaState) v =>
        let (r, σ') := alloc acc.2 v.data.length
        (acc.1 ++ [r], σ'))
      (([] : List Nat), σ1)
    let σ3 := (alloc σ2 (elementCount * DIGEST_SIZE)).2
    let σ4 := callHash σ3
    let σ5 := release σ4 vRefs
    let σ6 := copies.foldl release σ5
    (.ok (mergeArrayElements H vectors elementCount elementSize), σ6)

/-- The rows of a successful result. -/
def exceptRows (e : Except MerkleError (List (List Nat))) : List (List Nat) :=
  match e with
  | .ok l => l
  | .error _ => []

/-- C6.  For positive `valueSize` dividing the buffer length, `digestValues`
succeeds with `values.byteLength / valueSize` digests of 32 bytes each, the
`i`-th being `digest` of the `i`-th `valueSize`-byte record. -/
theorem digestValues_spec (H : List Nat → List Nat)
    (hH : ∀ x, (H x).length = DIGEST_SIZE) (values : List Nat) (valueSize : Nat)
    (resident : Bool) (σ : ArenaState) (s : WasmMem) (i : Nat) (hpos : 0 < valueSize)
    (hdvd : valueSize ∣ values.length) (hi : i < values.length / valueSize) :
    (digestValuesE H values valueSize resident σ).1.isOk = true ∧
    (exceptRows (digestValuesE H values valueSize resident σ).1).length =
      values.length / valueSize ∧
    (exceptRows (digestValuesE H values valueSize resident σ).1).getD i [] =
      (digest H s ((values.drop (i * valueSize)).take valueSize)).1 ∧
    ((exceptRows (digestValuesE H values valueSize resident σ).1).getD i []).length =
      DIGEST_SIZE := by
  have hm : values.length % valueSize = 0 := Nat.mod_eq_zero_of_dvd hdvd
  simp only [digestValuesE, if_neg (not_not_intro (And.intro hpos hm)), exceptRows]
  refine ⟨rfl, hashValues1_length H values valueSize _, ?_, ?_⟩
  · rw [digest_fst H hH, hashValues1_getD _ _ _ _ _ hi]
  · rw [hashValues1_getD _ _ _ _ _ hi]
    exact hH _

/-- Witness for C6 at a concrete input. -/
theorem digestValues_spec_witness :
    (∀ x, (Hc x).length = DIGEST_SIZE) ∧ 0 < 2 ∧ 2 ∣ ([1, 2, 3, 4] : List Nat).length ∧
      1 < ([1, 2, 3, 4] : List Nat).length / 2 ∧
      ((digestValuesE Hc [1, 2, 3, 4] 2 false sigma0).1.isOk = true ∧
      (exceptRows (digestValuesE Hc [1, 2, 3, 4] 2 false sigma0).1).length =
        ([1, 2, 3, 4] : List Nat).length / 2 ∧
      (exceptRows (digestValuesE Hc [1, 2, 3, 4] 2 false sigma0).1).getD 1 [] =
        (digest Hc wasmMem0 ((([1, 2, 3, 4] : List Nat).drop (1 * 2)).take 2)).1 ∧
      ((exceptRows (digestValuesE Hc [1, 2, 3, 4] 2 false sigma0).1).getD 1 []).length =
        DIGEST_SIZE) :=
  ⟨fun _ => rfl, by decide, by decide, by decide,
    digestValues_spec Hc (fun _ => rfl) [1, 2, 3, 4] 2 false sigma0 wasmMem0 1
      (by decide) (by decide) (by decide)⟩

/-- C8.  `digestValues` fails with `MisalignedBuffer` exactly when the
buffer length is not a multiple of `valueSize`, and the failing check
happens before any allocation or hashing: the arena state is returned
untouched. -/
theorem digestValues_misaligned_iff (H : List Nat → List Nat) (values : List Nat)
    (valueSize : Nat) (resident : Bool) (σ : ArenaState) (hpos : 0 < valueSize) :
    ((digestValuesE H values valueSize resident σ).1 =
        .error MerkleError.MisalignedBuffer ↔ values.length % valueSize ≠ 0) ∧
      (values.length % valueSize ≠ 0 →
        digestValuesE H values valueSize resident σ =
          (.error MerkleError.MisalignedBuffer, σ)) := by
  by_cases hm : values.length % valueSize = 0
  · refine ⟨⟨fun h => ?_, fun h => absurd hm h⟩, fun h => absurd hm h⟩
    simp only [digestValuesE, if_neg (not_not_intro (And.intro hpos hm))] at h
    exact absurd hm (by exact Except.noConfusion h)
  · have hc : ¬ (0 < valueSize ∧ values.length % valueSize = 0) := fun h => hm h.2
    refine ⟨?_, fun _ => ?_⟩
    · simp only [digestValuesE, if_pos hc]
      simp [hm]
    · simp only [digestValuesE, if_pos hc]

/-- Witness for C8 at a concrete input. -/
theorem digestValues_misaligned_iff_witness :
    0 < 2 ∧
      (((digestValuesE Hc [0] 2 false sigma0).1 =
          .error MerkleError.MisalignedBuffer ↔ ([0] : List Nat).length % 2 ≠ 0) ∧
        (([0] : List Nat).length % 2 ≠ 0 →
          digestValuesE Hc [0] 2 false sigma0 =
            (.error MerkleError.MisalignedBuffer, sigma0))) :=
  ⟨by decide, digestValues_misaligned_iff Hc [0] 2 false sigma0 (by decide)⟩

/-- C7 (amended).  `mergeVectorRows` validates the element size of the
first vector only: when `vectors[0].elementSize` exceeds 64 or does not
divide 64, it fails with `InvalidElementSize` before any allocation or
hashing, returning the arena untouched. -/
theorem mergeVectorRows_invalid_first (H : List Nat → List Nat)
    (vectors : List VectorV) (σ : ArenaState) (hne : vectors ≠ [])
    (hviol : 64 < (vectors.headD default).elementSize ∨
      64 % (vectors.headD default).elementSize ≠ 0) :
    mergeVectorRowsE H vectors σ = (.error MerkleError.InvalidElementSize, σ) := by
  by_cases h1 : 64 < (vectors.headD default).elementSize
  · simp only [mergeVectorRowsE, if_pos h1]
  · rcases hviol with h | h
    · exact absurd h h1
    · simp only [mergeVectorRowsE, if_neg h1, if_pos h]

/-- Concrete vectors for the C7 instances. -/
def vecA : VectorV := ⟨1, 32, List.replicate 32 3⟩

def vecB : VectorV := ⟨1, 65, List.replicate 65 4⟩

def vecC : VectorV := ⟨2, 65, List.replicate 130 0⟩

/-- Witness for the amended C7 at a concrete input. -/
theorem mergeVectorRows_invalid_first_witness :
    ([vecC] ≠ ([] : List VectorV)) ∧
      (64 < (([vecC] : List VectorV).headD default).elementSize ∨
        64 % (([vecC] : List VectorV).headD default).elementSize ≠ 0) ∧
      mergeVectorRowsE Hc [vecC] sigma0 =
        (.error MerkleError.InvalidElementSize, sigma0) :=
  ⟨by simp, Or.inl (by decide),
    mergeVectorRows_invalid_first Hc [vecC] sigma0 (by simp) (Or.inl (by decide))⟩

/-- Counterexample to C7 as stated: a list whose second vector has element
size 65 (greater than 64) is not rejected, because only `vectors[0]` is
checked; the call succeeds. -/
theorem mergeVectorRows_second_vector_unchecked :
    64 < vecB.elementSize ∧
      (mergeVectorRowsE Hc [vecA, vecB] sigma0).1.isOk = true := by
  constructor
  · decide
  · decide

/-- `WasmBlake2s.digest` (lines 46-63) tracked against the arena, with a
fallible hash primitive so the behaviour of a failing `wasm.hash` call is
statable.  Small values use the reserved scratch region and allocate
nothing.  Values of 4096 bytes or more allocate a block (`vRef = σ.next`),
call the primitive, and release the block; the release on line 60 has no
surrounding try/finally, so when the hash call itself throws, the error
propagates with the block still allocated. -/
def digestE (H : List Nat → Except Unit (List Nat)) (value : List Nat)
    (σ : ArenaState) : Except Unit (List Nat) × ArenaState :=
  if value.length < 4096 then
    match H value with
    | .ok d => (.ok d, callHash σ)
    | .error e => (.error e, callHash σ)
  else
    let vRef := σ.next
    let σ1 := (alloc σ value.length).2
    let σ2 := callHash σ1
    match H value with
    | .ok d => (.ok d, release σ2 vRef)
    | .error e => (.error e, σ2)

/-- C9 (amended).  For a value of at least 4096 bytes, `digest` allocates a
fresh block sized to the value, hashes it, and releases the block on the
normal exit path: when the hash call succeeds the set of live arena blocks
after the call is exactly the one before it.  (On the path where the hash
call itself throws, the block is not released.) -/
theorem digest_releases_on_ok (H : List Nat → Except Unit (List Nat))
    (value : List Nat) (σ : ArenaState) (d : List Nat) (hlen : 4096 ≤ value.length)
    (hok : H value = .ok d) (hwf : ∀ p ∈ σ.outstanding, p.1 < σ.next) :
    (digestE H value σ).1 = .ok d ∧
      (digestE H value σ).2.outstanding = σ.outstanding := by
  simp only [digestE, if_neg (show ¬ (value.length < 4096) by omega), alloc,
    callHash, hok, release]
  refine ⟨trivial, ?_⟩
  rw [List.filter_append]
  have h1 : σ.outstanding.filter (fun p => (p.1 ≠ σ.next : Bool)) = σ.outstanding :=
    List.filter_eq_self.mpr fun a ha => by
      simpa using Nat.ne_of_lt (hwf a ha)
  have h2 : ([((σ.next : Nat), value.length)].filter
      (fun p => (p.1 ≠ σ.next : Bool))) = [] := by simp
  rw [h1, h2, List.append_nil]

/-- The always-succeeding and always-failing concrete primitives. -/
def HokE : List Nat → Except Unit (List Nat) := fun _ => .ok NULL_BUFFER

def HerrE : List Nat → Except Unit (List Nat) := fun _ => .error ()

/-- Witness for the amended C9 at a concrete input. -/
theorem digest_releases_on_ok_witness :
    4096 ≤ (List.replicate 4096 0).length ∧
      HokE (List.replicate 4096 0) = .ok NULL_BUFFER ∧
      (∀ p ∈ sigma0.outstanding, p.1 < sigma0.next) ∧
      ((digestE HokE (List.replicate 4096 0) sigma0).1 = .ok NULL_BUFFER ∧
        (digestE HokE (List.replicate 4096 0) sigma0).2.outstanding =
          sigma0.outstanding) :=
  ⟨by rw [List.length_replicate], rfl, by simp [sigma0],
    digest_releases_on_ok HokE (List.replicate 4096 0) sigma0 NULL_BUFFER
      (by rw [List.length_replicate]) rfl (by simp [sigma0])⟩

/-- On the large-value branch with a failing hash call, `digestE` returns
the error with the fresh block still in the live set. -/
theorem digestE_error_state (value : List Nat) (σ : ArenaState)
    (h : ¬ (value.length < 4096)) :
    digestE HerrE value σ =
      (.error (),
        { σ with
            next := σ.next + value.length + 1
            outstanding := σ.outstanding ++ [(σ.next, value.length)]
            hashCalls := σ.hashCalls + 1 }) := by
  simp only [digestE, if_neg h, HerrE, alloc, callHash]

/-- Counterexample to C9 as stated: starting from an empty arena, a
4096-byte value whose hash call fails leaves the freshly allocated block
outstanding after the call throws — the release is skipped on the error
path. -/
theorem digest_leaks_on_hash_error :
    (digestE HerrE (List.replicate 4096 0) sigma0).1 = .error () ∧
      (digestE HerrE (List.replicate 4096 0) sigma0).2.outstanding = [(0, 4096)] ∧
      (digestE HerrE (List.replicate 4096 0) sigma0).2.outstanding ≠
        sigma0.outstanding := by
  have hlen : (List.replicate 4096 (0 : Nat)).length = 4096 :=
    List.length_replicate 4096 0
  rw [digestE_error_state (List.replicate 4096 0) sigma0 (by rw [hlen]; omega), hlen]
  refine ⟨rfl, rfl, ?_⟩
  simp [sigma0]

end Merkle
